import Mathlib

/-!
Verification of the market-data caching and time-windowing pipeline of the
stock-ticker repository: the rate limiter guarding the upstream quote source
(`checkRateLimit` in `src/services/finnhub.ts` / `alphaVantage.ts`), the
fetch-through Supabase cache (`src/services/supabaseCache.ts`), the quote
refresh loop (`src/hooks/useStockData.ts`), and the downsampling engine
(`downsampleData` and the merge step of the simulated-data hook).

Times and prices are embedded as `Int` (JS numbers at integer values:
millisecond timestamps and exact quote values); request counters as `Nat`.
The remote Supabase table is embedded as an association list from
`(symbol, period)` to a row, and each database-touching operation is a pure
function threading that store.  Presentation-only fields of the UI `Stock`
record (`name`, the `marketCap` display string) are not modelled; every field
read or written by the refresh-loop update is.
-/

/-- A single historical price point (`PricePoint` in `src/types/stock.ts`). -/
structure PricePoint where
  timestamp : Int
  price : Int
deriving DecidableEq, Repr

/-- The closed set of chart periods (`TimePeriod` in `src/types/stock.ts`):
`'15min' | '1h' | '1d' | '5d' | '1m' | '3m' | '6m' | '1y'`. -/
inductive TimePeriod where
  | t15min | t1h | t1d | t5d | t1m | t3m | t6m | t1y
deriving DecidableEq, Repr

/-- The `CACHE_TTL` table of `src/services/supabaseCache.ts` (milliseconds). -/
def CACHE_TTL : TimePeriod → Int
  | .t15min => 15 * 60 * 1000
  | .t1h => 30 * 60 * 1000
  | .t1d => 60 * 60 * 1000
  | .t5d => 2 * 60 * 60 * 1000
  | .t1m => 6 * 60 * 60 * 1000
  | .t3m => 12 * 60 * 60 * 1000
  | .t6m => 24 * 60 * 60 * 1000
  | .t1y => 7 * 24 * 60 * 60 * 1000

/-- The ordered period list `['15min','1h','1d','5d','1m','3m','6m','1y']`
used throughout the hooks. -/
def periodOrder : List TimePeriod :=
  [.t15min, .t1h, .t1d, .t5d, .t1m, .t3m, .t6m, .t1y]

/-- One row of the `stock_historical_cache` table: the serialized point
sequence and its expiry instant (`expires_at`, compared as a date). -/
structure CacheRow where
  data : List PricePoint
  expires_at : Int
deriving DecidableEq, Repr

/-- The cache table key: unique `(symbol, period)`. -/
abbrev CacheKey := String × TimePeriod

/-- The remote table, embedded as an association list keyed by
`(symbol, period)` (the schema declares that pair unique). -/
abbrev Store := List (CacheKey × CacheRow)

/-- Point lookup by key (the `.eq('symbol', …).eq('period', …).single()`
query of `getCachedData`). -/
def storeGet (st : Store) (k : CacheKey) : Option CacheRow :=
  (st.find? fun e => decide (e.1 = k)).map (·.2)

/-- Row deletion by key (`deleteCachedData`). -/
def storeErase (st : Store) (k : CacheKey) : Store :=
  st.filter fun e => !(decide (e.1 = k))

/-- Upsert on the unique `(symbol, period)` key (`upsert … onConflict`):
replace the row when the key exists, insert it otherwise. -/
def storeUpsert (st : Store) (k : CacheKey) (r : CacheRow) : Store :=
  if st.any (fun e => decide (e.1 = k)) then
    st.map fun e => if e.1 = k then (k, r) else e
  else
    st ++ [(k, r)]

/-- `deleteCachedData` of `src/services/supabaseCache.ts`. -/
def deleteCachedData (st : Store) (symbol : String) (period : TimePeriod) : Store :=
  storeErase st (symbol, period)

/-- `getCachedData` of `src/services/supabaseCache.ts`: returns the stored
series, or `none` when no row exists or the row is expired
(`expiresAt < new Date()`); in the expired case the stale row is deleted
before returning.  The pair carries the store after the read. -/
def getCachedData (st : Store) (symbol : String) (period : TimePeriod) (now : Int) :
    Option (List PricePoint) × Store :=
  match storeGet st (symbol, period) with
  | none => (none, st)
  | some row =>
    if row.expires_at < now then
      (none, deleteCachedData st symbol period)
    else
      (some row.data, st)

/-- `setCachedData` of `src/services/supabaseCache.ts`: a no-op on empty
input (`data.length === 0`), otherwise an upsert of the row with
`expires_at = now + CACHE_TTL[period]`. -/
def setCachedData (st : Store) (symbol : String) (period : TimePeriod)
    (data : List PricePoint) (now : Int) : Store :=
  if data.length = 0 then st
  else storeUpsert st (symbol, period) ⟨data, now + CACHE_TTL period⟩

/-- Result of one `getOrFetchData` call: the returned series, the store
afterwards, and whether the injected `fetchFn` was invoked. -/
structure FetchOutcome where
  result : List PricePoint
  store : Store
  fetchInvoked : Bool
deriving DecidableEq, Repr

/-- `getOrFetchData` of `src/services/supabaseCache.ts`: cache hit
(`cachedData && cachedData.length > 0`) returns the cached series; otherwise
the injected `fetchFn` runs (embedded as its pure result `fetchFn`) and a
non-empty result is written through. -/
def getOrFetchData (st : Store) (symbol : String) (period : TimePeriod)
    (fetchFn : List PricePoint) (now : Int) : FetchOutcome :=
  let c := getCachedData st symbol period now
  match c.1 with
  | some cached =>
    if 0 < cached.length then
      ⟨cached, c.2, false⟩
    else
      ⟨fetchFn,
        if 0 < fetchFn.length then setCachedData c.2 symbol period fetchFn now else c.2,
        true⟩
  | none =>
    ⟨fetchFn,
      if 0 < fetchFn.length then setCachedData c.2 symbol period fetchFn now else c.2,
      true⟩

/-- Mutable module state of the rate limiter in `src/services/finnhub.ts`
(and identically in `alphaVantage.ts`): `requestCount` and
`lastRequestTime`. -/
structure RLState where
  requestCount : Nat
  lastRequestTime : Int
deriving DecidableEq, Repr

/-- One `checkRateLimit()` call at instant `now`, for limits `max`
(`MAX_REQUESTS_PER_MINUTE`) and `window` (`MINUTE_MS`): reset the counter
when more than a window has elapsed; when the counter has reached the limit,
wait `window - (now - lastRequestTime)` and reset; then count this request.
Returns the instant at which the call completes, paired with the state it
leaves behind. -/
def rlStep (max : Nat) (window : Int) (s : RLState) (now : Int) : Int × RLState :=
  let s1 := if now - s.lastRequestTime > window then ⟨0, now⟩ else s
  if s1.requestCount ≥ max then
    let done := now + (window - (now - s1.lastRequestTime))
    (done, ⟨1, done⟩)
  else
    (now, ⟨s1.requestCount + 1, s1.lastRequestTime⟩)

/-- A sequential run of `checkRateLimit` calls arriving at the listed
instants, from state `s`; each element of the result is the completion
instant of one call together with the state after it. -/
def rlRun (max : Nat) (window : Int) (s : RLState) : List Int → List (Int × RLState)
  | [] => []
  | now :: rest =>
    let r := rlStep max window s now
    r :: rlRun max window r.2 rest

/-- The completion instants of a run. -/
def rlCompletions (max : Nat) (window : Int) (s : RLState) (calls : List Int) : List Int :=
  (rlRun max window s calls).map (·.1)

/-- How many completions of the run fall in the half-open rolling window
`[t, t + len)`. -/
def rlCompletionsWithin (max : Nat) (window : Int) (s : RLState) (calls : List Int)
    (t len : Int) : Nat :=
  ((rlCompletions max window s calls).filter fun d => decide (t ≤ d) && decide (d < t + len)).length

/-- How many completions of the run belong to the limiter window that starts
at `w`, i.e. complete while `lastRequestTime = w`. -/
def rlWindowCount (max : Nat) (window : Int) (s : RLState) (calls : List Int) (w : Int) : Nat :=
  ((rlRun max window s calls).filter fun r => decide (r.2.lastRequestTime = w)).length

/-- A call trace is sequential when every call arrives no earlier than the
completion of the previous one (the JS caller `await`s each
`checkRateLimit`). -/
def rlSequential (max : Nat) (window : Int) (s : RLState) : List Int → Bool
  | [] => true
  | now :: rest =>
    let r := rlStep max window s now
    (rest.all fun later => decide (r.1 ≤ later)) && rlSequential max window r.2 rest

/-- Module state of `src/services/finnhub.ts`: the memo `cache` (key,
cached payload abstracted to its timestamp entry) plus the rate-limiter
counters. -/
structure FinnhubModuleState where
  cache : List (String × Int)
  requestCount : Nat
  lastRequestTime : Int
deriving DecidableEq, Repr

/-- `clearCache()` of `src/services/finnhub.ts` (identical in
`alphaVantage.ts`): `cache.clear(); requestCount = 0;
lastRequestTime = Date.now()`. -/
def clearCache (_st : FinnhubModuleState) (now : Int) : FinnhubModuleState :=
  ⟨[], 0, now⟩

/-- The rate-limiter portion of the module state. -/
def rlStateOf (st : FinnhubModuleState) : RLState :=
  ⟨st.requestCount, st.lastRequestTime⟩

/-- Shape of the Finnhub `/quote` JSON payload (`FinnhubQuoteResponse`):
current price `c`, change `d`, percent change `dp`, day high `h`, day low
`l`, open `o`, previous close `pc`, timestamp `t`. -/
structure FinnhubQuoteResponse where
  c : Int
  d : Int
  dp : Int
  h : Int
  l : Int
  o : Int
  pc : Int
  t : Int
deriving DecidableEq, Repr

/-- A JS object literal with number fields, embedded as a field-name/value
association; reading an absent field yields `undefined`, embedded as
`none`. -/
def jsGet (obj : List (String × Int)) (field : String) : Option Int :=
  (obj.find? fun p => decide (p.1 = field)).map (·.2)

/-- The record `fetchQuote` of `src/services/finnhub.ts` builds from a
received payload: it throws on `json.c === 0` (invalid symbol), otherwise
returns the object literal
`{price: c, change: d, changePercent: dp, previousClose: pc}`. -/
def fetchQuoteResult (r : FinnhubQuoteResponse) : Except String (List (String × Int)) :=
  if r.c = 0 then
    Except.error "invalid symbol or no data"
  else
    Except.ok [("price", r.c), ("change", r.d), ("changePercent", r.dp),
      ("previousClose", r.pc)]

/-- `priceDirection` values of the `Stock` record. -/
inductive PriceDirection where
  | up | down | neutral
deriving DecidableEq, Repr

/-- The slice of the UI `Stock` record read or written by the quote refresh
loop of `src/hooks/useStockData.ts` (presentation-only `name`/`marketCap`
omitted). -/
structure StockState where
  symbol : String
  price : Int
  previousPrice : Option Int
  change : Int
  changePercent : Int
  dayHigh : Option Int
  dayLow : Option Int
  volume : Int
  priceDirection : PriceDirection
deriving DecidableEq, Repr

/-- The quote fields `fetchStockQuote` hands to the update (its
`Partial<Stock>`): `dayHigh`/`dayLow` are whatever the upstream record
carries for those names, `undefined` included. -/
structure QuoteData where
  price : Int
  change : Int
  changePercent : Int
  dayHigh : Option Int
  dayLow : Option Int
deriving DecidableEq, Repr

/-- The per-symbol update applied inside `updateQuotes` on a successful
fetch: remember `previousPrice`, take the quote's fields, derive
`priceDirection` by comparing the new price to the previous one, and grow
`volume` by the tick's simulated increment `dv`. -/
def applyQuote (s : StockState) (q : QuoteData) (dv : Int) : StockState :=
  { s with
    previousPrice := some s.price
    price := q.price
    change := q.change
    changePercent := q.changePercent
    dayHigh := q.dayHigh
    dayLow := q.dayLow
    volume := s.volume + dv
    priceDirection :=
      if q.price > s.price then .up
      else if q.price < s.price then .down
      else .neutral }

/-- One iteration of the `for (const stock of stocks)` loop in
`updateQuotes`: skip symbols missing from `availableStocks` (`avail`);
`fetchStockQuote` returning `null` (a caught per-symbol failure) leaves the
state untouched; a successful quote maps the matching entry through
`applyQuote`. -/
def updateQuotesStep (avail : String → Bool) (fetch : String → Option QuoteData)
    (dv : String → Int) (stocks : List StockState) (sym : String) : List StockState :=
  if avail sym then
    match fetch sym with
    | some q => stocks.map fun s => if s.symbol = sym then applyQuote s q (dv sym) else s
    | none => stocks
  else stocks

/-- `updateQuotes` of `src/hooks/useStockData.ts`: iterate the tracked
symbol list sequentially, applying each symbol's outcome in turn. -/
def updateQuotes (avail : String → Bool) (fetch : String → Option QuoteData)
    (dv : String → Int) (stocks : List StockState) : List StockState :=
  (stocks.map (·.symbol)).foldl (updateQuotesStep avail fetch dv) stocks

/-- Entry of a quote state list with the given symbol (first match). -/
def getStock (l : List StockState) (sym : String) : Option StockState :=
  l.find? fun s => decide (s.symbol = sym)

/-- `downsampleData` of the simulated-data hook: if the raw buffer is empty
return `[]`; otherwise partition `[now - maxPoints*intervalMs, now)` into
`maxPoints` fixed-width buckets and, per bucket, keep the last raw point
whose timestamp falls inside it (`bucketPoints[bucketPoints.length - 1]`),
skipping empty buckets. -/
def downsampleData (realtimeData : List PricePoint) (intervalMs : Int) (maxPoints : Nat)
    (now : Int) : List PricePoint :=
  if realtimeData.length = 0 then []
  else
    let periodStartTime := now - (maxPoints : Int) * intervalMs
    (List.range maxPoints).filterMap fun (i : Nat) =>
      let bucketStartTime := periodStartTime + (i : Int) * intervalMs
      let bucketEndTime := bucketStartTime + intervalMs
      (realtimeData.filter fun p =>
        decide (bucketStartTime ≤ p.timestamp) && decide (p.timestamp < bucketEndTime)).getLast?

/-- Modelled from the spec: "for each bucket, select the last raw tick whose
timestamp falls in that bucket (last-value-wins); buckets with no ticks are
omitted".  Here each bucket's representative is computed by a last-value-wins
scan of the tick stream in arrival order, with the same bucket boundaries
`now - maxPoints*bucketWidth + i*bucketWidth`. -/
def downsampleSpec (ticks : List PricePoint) (bucketWidthMs : Int) (maxPoints : Nat)
    (now : Int) : List PricePoint :=
  let windowStart := now - (maxPoints : Int) * bucketWidthMs
  (List.range maxPoints).filterMap fun (i : Nat) =>
    let lo := windowStart + (i : Int) * bucketWidthMs
    let hi := lo + bucketWidthMs
    ticks.foldl
      (fun acc p => if lo ≤ p.timestamp ∧ p.timestamp < hi then some p else acc) none

/-- JS `Map.set` on a number-keyed map embedded as an association list:
setting an existing key overwrites its value in place (insertion order is
kept), a new key is appended. -/
def jsMapSet (m : List (Int × Int)) (k v : Int) : List (Int × Int) :=
  if m.any (fun e => decide (e.1 = k)) then
    m.map fun e => if e.1 = k then (k, v) else e
  else
    m ++ [(k, v)]

/-- The dedup step of the merge: `combined.forEach(p => uniqueMap.set(p.timestamp, p.price))`. -/
def jsMapFromPoints (pts : List PricePoint) : List (Int × Int) :=
  pts.foldl (fun m p => jsMapSet m p.timestamp p.price) []

/-- First-match lookup in a JS map (what `Map.get`/iteration exposes). -/
def lookupK (m : List (Int × Int)) (t : Int) : Option Int :=
  (m.find? fun e => decide (e.1 = t)).map (·.2)

/-- The value of the last point of `pts` carrying timestamp `t` (the
"latest value" for that timestamp in stream order). -/
def lastVal (pts : List PricePoint) (t : Int) : Option Int :=
  ((pts.filter fun p => decide (p.timestamp = t)).getLast?).map (·.price)

/-- Ordered insertion by timestamp, the building block for the embedded
`sort((a, b) => a.timestamp - b.timestamp)`. -/
def sortInsertTs (p : PricePoint) : List PricePoint → List PricePoint
  | [] => [p]
  | q :: rest =>
    if p.timestamp ≤ q.timestamp then p :: q :: rest else q :: sortInsertTs p rest

/-- Ascending sort by timestamp (insertion sort; the source's comparator
sort — equal keys cannot occur after dedup, so any stable order agrees). -/
def sortByTs (l : List PricePoint) : List PricePoint :=
  l.foldr sortInsertTs []

/-- The merge step of the simulated-data hook (lines 163-174 of the hook):
concatenate the existing stored series with the newly downsampled points,
dedupe timestamps through a JS `Map` (later writes win), turn the map back
into points, sort ascending by timestamp, and keep the most recent
`maxPoints` entries (`slice(-maxPoints)`). -/
def mergeSeries (existing downsampled : List PricePoint) (maxPoints : Nat) : List PricePoint :=
  let combined := existing ++ downsampled
  let uniquePoints := (jsMapFromPoints combined).map fun e => PricePoint.mk e.1 e.2
  let sorted := sortByTs uniquePoints
  sorted.drop (sorted.length - maxPoints)

/-- Concrete Finnhub payload used to exercise `fetchQuote`: price 150,
change 2, percent change 1, day high 155, day low 145, open 149, previous
close 148. -/
def c4resp : FinnhubQuoteResponse :=
  ⟨150, 2, 1, 155, 145, 149, 148, 1700000000⟩

/-- The object literal `fetchQuote` builds from `c4resp`. -/
def c4fields : List (String × Int) :=
  [("price", 150), ("change", 2), ("changePercent", 1), ("previousClose", 148)]

/-- A concrete tracked stock before a refresh tick. -/
def c4stock : StockState :=
  ⟨"AAPL", 149, none, 1, 1, some 154, some 144, 1000, .neutral⟩

theorem storeGet_erase (st : Store) (k : CacheKey) :
    storeGet (storeErase st k) k = none := by
  induction st with
  | nil => rfl
  | cons e st ih =>
    by_cases h : e.1 = k
    · simpa [storeErase, List.filter_cons, h] using ih
    · simp [storeErase, storeGet, List.filter_cons, List.find?_cons, h]

theorem storeGet_upsert_self (st : Store) (k : CacheKey) (r : CacheRow) :
    storeGet (storeUpsert st k r) k = some r := by
  by_cases hany : st.any (fun e => decide (e.1 = k))
  · induction st with
    | nil => simp at hany
    | cons e st ih =>
      by_cases he : e.1 = k
      · simp [storeUpsert, hany, storeGet, List.find?_cons, he]
      · have hany' : st.any (fun e => decide (e.1 = k)) := by
          simpa [List.any_cons, he] using hany
        have := ih hany'
        simpa [storeUpsert, hany, hany', storeGet, List.find?_cons, he] using this
  · have hnone : st.find? (fun e => decide (e.1 = k)) = none := by
      rw [List.find?_eq_none]
      intro x hx
      intro hpx
      exact hany (List.any_eq_true.mpr ⟨x, hx, hpx⟩)
    simp [storeUpsert, hany, storeGet, List.find?_append, hnone, List.find?_cons]

theorem cache_ttl_pos (per : TimePeriod) : 0 < CACHE_TTL per := by
  cases per <;> decide

theorem getCachedData_store_cases (st : Store) (sym : String) (per : TimePeriod) (now : Int) :
    (getCachedData st sym per now).2 = st ∨
    (getCachedData st sym per now).2 = deleteCachedData st sym per := by
  unfold getCachedData
  cases storeGet st (sym, per) with
  | none => exact Or.inl rfl
  | some row =>
    by_cases h : row.expires_at < now
    · simp [h]
    · simp [h]

theorem getOrFetchData_invoked_of_miss (st : Store) (sym : String) (per : TimePeriod)
    (f : List PricePoint) (now : Int)
    (h : (getCachedData st sym per now).1 = none ∨
      (getCachedData st sym per now).1 = some []) :
    (getOrFetchData st sym per f now).fetchInvoked = true ∧
    (getOrFetchData st sym per f now).result = f := by
  unfold getOrFetchData
  rcases h with h | h <;> simp [h]

theorem getCachedData_miss_after_miss (st : Store) (sym : String) (per : TimePeriod)
    (now₁ now₂ : Int)
    (h : (getCachedData st sym per now₁).1 = none ∨
      (getCachedData st sym per now₁).1 = some []) :
    (getCachedData (getCachedData st sym per now₁).2 sym per now₂).1 = none ∨
    (getCachedData (getCachedData st sym per now₁).2 sym per now₂).1 = some [] := by
  cases hg : storeGet st (sym, per) with
  | none =>
    left
    unfold getCachedData
    simp [hg]
  | some row =>
    by_cases hex : row.expires_at < now₁
    · left
      have h2 : (getCachedData st sym per now₁).2 = deleteCachedData st sym per := by
        unfold getCachedData; simp [hg, hex]
      rw [h2]
      unfold getCachedData
      simp [deleteCachedData, storeGet_erase]
    · have h1 : (getCachedData st sym per now₁).1 = some row.data := by
        unfold getCachedData; simp [hg, hex]
      have hdata : row.data = [] := by
        rcases h with h | h
        · rw [h1] at h; cases h
        · rw [h1] at h; exact Option.some_injective _ h
      have h2 : (getCachedData st sym per now₁).2 = st := by
        unfold getCachedData; simp [hg, hex]
      rw [h2]
      unfold getCachedData
      by_cases hex2 : row.expires_at < now₂
      · simp [hg, hex2]
      · simp [hg, hex2, hdata]

/-- C8: the per-period cache TTL table equals the spec's table
(15min→15 min, 1h→30 min, 1d→1 h, 5d→2 h, 1m→6 h, 3m→12 h, 6m→24 h,
1y→7 days, in milliseconds), and TTL is monotonically non-decreasing across
the ordered period list. -/
theorem cacheTtl_table_monotone :
    (CACHE_TTL .t15min = 15 * 60 * 1000 ∧ CACHE_TTL .t1h = 30 * 60 * 1000 ∧
     CACHE_TTL .t1d = 60 * 60 * 1000 ∧ CACHE_TTL .t5d = 2 * 60 * 60 * 1000 ∧
     CACHE_TTL .t1m = 6 * 60 * 60 * 1000 ∧ CACHE_TTL .t3m = 12 * 60 * 60 * 1000 ∧
     CACHE_TTL .t6m = 24 * 60 * 60 * 1000 ∧ CACHE_TTL .t1y = 7 * 24 * 60 * 60 * 1000) ∧
    (periodOrder.map CACHE_TTL).Chain' (· ≤ ·) := by
  refine ⟨⟨rfl, rfl, rfl, rfl, rfl, rfl, rfl, rfl⟩, ?_⟩
  simp only [periodOrder, List.map_cons, List.map_nil, List.chain'_cons,
    List.chain'_singleton, and_true]
  refine ⟨?_, ?_, ?_, ?_, ?_, ?_, ?_⟩ <;> norm_num [CACHE_TTL]

/-- C2: when the cache misses (no row, or an empty stored series), calling
`getOrFetchData` with a `fetchFn` returning the empty sequence returns the
empty sequence, invokes `fetchFn`, creates no cache row (`setCachedData` is
a no-op on empty input, and the store is unchanged except possibly for the
deletion of an expired stale row), and a subsequent call for the same
`(symbol, period)` still misses and invokes `fetchFn` again. -/
theorem getOrFetchData_empty_no_poison (st : Store) (sym : String) (per : TimePeriod)
    (now₁ now₂ : Int) (f₂ : List PricePoint)
    (st' : Store) (sym' : String) (per' : TimePeriod) (now' : Int)
    (hmiss : (getCachedData st sym per now₁).1 = none ∨
      (getCachedData st sym per now₁).1 = some []) :
    (getOrFetchData st sym per [] now₁).result = [] ∧
    (getOrFetchData st sym per [] now₁).fetchInvoked = true ∧
    ((getOrFetchData st sym per [] now₁).store = st ∨
      (getOrFetchData st sym per [] now₁).store = deleteCachedData st sym per) ∧
    setCachedData st' sym' per' [] now' = st' ∧
    (getOrFetchData (getOrFetchData st sym per [] now₁).store sym per f₂ now₂).fetchInvoked
      = true := by
  have hres := getOrFetchData_invoked_of_miss st sym per [] now₁ hmiss
  have hstore : (getOrFetchData st sym per [] now₁).store = (getCachedData st sym per now₁).2 := by
    unfold getOrFetchData
    rcases hmiss with h | h <;> simp [h, setCachedData]
  refine ⟨hres.2, hres.1, ?_, ?_, ?_⟩
  · rw [hstore]
    exact getCachedData_store_cases st sym per now₁
  · simp [setCachedData]
  · rw [hstore]
    exact (getOrFetchData_invoked_of_miss _ sym per f₂ now₂
      (getCachedData_miss_after_miss st sym per now₁ now₂ hmiss)).1

theorem getOrFetchData_empty_no_poison_witness :
    ((getCachedData [] "GOOGL" TimePeriod.t5d 0).1 = none ∨
      (getCachedData [] "GOOGL" TimePeriod.t5d 0).1 = some []) ∧
    ((getOrFetchData [] "GOOGL" TimePeriod.t5d [] 0).result = [] ∧
     (getOrFetchData [] "GOOGL" TimePeriod.t5d [] 0).fetchInvoked = true ∧
     ((getOrFetchData [] "GOOGL" TimePeriod.t5d [] 0).store = [] ∨
       (getOrFetchData [] "GOOGL" TimePeriod.t5d [] 0).store
         = deleteCachedData [] "GOOGL" TimePeriod.t5d) ∧
     setCachedData [] "IBM" TimePeriod.t1h [] 7 = [] ∧
     (getOrFetchData (getOrFetchData [] "GOOGL" TimePeriod.t5d [] 0).store "GOOGL"
        TimePeriod.t5d [⟨1, 2⟩] 1).fetchInvoked = true) :=
  ⟨Or.inl rfl,
    getOrFetchData_empty_no_poison [] "GOOGL" TimePeriod.t5d 0 1 [⟨1, 2⟩]
      [] "IBM" TimePeriod.t1h 7 (Or.inl rfl)⟩

/-- C3 counterexample: as stated, the claim quantifies over every point
sequence, but on the empty sequence `setCachedData` is a no-op, so a write
of `[]` to an empty store followed immediately by a read yields a miss
(`none`), not the written (empty) sequence. -/
theorem cache_write_read_empty_counterexample :
    getCachedData (setCachedData [] "AAPL" TimePeriod.t1d [] 5) "AAPL" TimePeriod.t1d 5
      = (none, ([] : Store)) ∧
    (getCachedData (setCachedData [] "AAPL" TimePeriod.t1d [] 5) "AAPL" TimePeriod.t1d 5).1
      ≠ some [] := by
  decide

/-- C3 (amended to non-empty point sequences, which is what `setCachedData`
actually persists): a write of a non-empty sequence followed immediately by
a read returns the identical sequence; a read performed after
`cacheTtl(period)` has elapsed since the write (`expiresAt < now`) reports a
miss and deletes the stale row as part of the read; a read with no row
present also reports a miss. -/
theorem cache_write_read_roundtrip (st st₀ : Store) (sym : String) (per : TimePeriod)
    (pts : List PricePoint) (now now' : Int) (hne : pts ≠ [])
    (h₀ : storeGet st₀ (sym, per) = none) :
    getCachedData (setCachedData st sym per pts now) sym per now
      = (some pts, setCachedData st sym per pts now) ∧
    (now + CACHE_TTL per < now' →
      getCachedData (setCachedData st sym per pts now) sym per now'
        = (none, deleteCachedData (setCachedData st sym per pts now) sym per) ∧
      storeGet (deleteCachedData (setCachedData st sym per pts now) sym per) (sym, per)
        = none) ∧
    getCachedData st₀ sym per now' = (none, st₀) := by
  have hlen : ¬ pts.length = 0 := by simpa using hne
  have hset : setCachedData st sym per pts now
      = storeUpsert st (sym, per) ⟨pts, now + CACHE_TTL per⟩ := by
    simp [setCachedData, hlen]
  have hget : storeGet (setCachedData st sym per pts now) (sym, per)
      = some ⟨pts, now + CACHE_TTL per⟩ := by
    rw [hset]
    exact storeGet_upsert_self st (sym, per) ⟨pts, now + CACHE_TTL per⟩
  refine ⟨?_, ?_, ?_⟩
  · unfold getCachedData
    rw [hget]
    have hhot : ¬ (now + CACHE_TTL per < now) := by
      have := cache_ttl_pos per
      omega
    simp [hhot]
  · intro hlt
    constructor
    · unfold getCachedData
      rw [hget]
      simp [hlt]
    · exact storeGet_erase (setCachedData st sym per pts now) (sym, per)
  · unfold getCachedData
    simp [h₀]

theorem cache_write_read_roundtrip_witness :
    ([⟨1, 2⟩] : List PricePoint) ≠ [] ∧
    storeGet [] ("AAPL", TimePeriod.t1d) = none ∧
    (getCachedData (setCachedData [] "AAPL" TimePeriod.t1d [⟨1, 2⟩] 0) "AAPL" TimePeriod.t1d 0
        = (some [⟨1, 2⟩], setCachedData [] "AAPL" TimePeriod.t1d [⟨1, 2⟩] 0) ∧
      ((0 : Int) + CACHE_TTL TimePeriod.t1d < 10000000000 →
        getCachedData (setCachedData [] "AAPL" TimePeriod.t1d [⟨1, 2⟩] 0) "AAPL" TimePeriod.t1d
            10000000000
          = (none, deleteCachedData (setCachedData [] "AAPL" TimePeriod.t1d [⟨1, 2⟩] 0)
              "AAPL" TimePeriod.t1d) ∧
        storeGet (deleteCachedData (setCachedData [] "AAPL" TimePeriod.t1d [⟨1, 2⟩] 0)
            "AAPL" TimePeriod.t1d) ("AAPL", TimePeriod.t1d) = none) ∧
      getCachedData [] "AAPL" TimePeriod.t1d 10000000000 = (none, ([] : Store))) :=
  ⟨by decide, rfl,
    cache_write_read_roundtrip [] [] "AAPL" TimePeriod.t1d [⟨1, 2⟩] 0 10000000000
      (by decide) rfl⟩

/-- C10: `getOrFetchData` treats a cached row holding an empty point
sequence like a miss — the hit path needs a non-empty value — so with an
empty series stored for `(symbol, period)`, `fetchFn` is still invoked and
its result returned. -/
theorem getOrFetchData_emptyCached_refetches (st : Store) (sym : String) (per : TimePeriod)
    (f : List PricePoint) (now : Int) (row : CacheRow)
    (hrow : storeGet st (sym, per) = some row) (hempty : row.data = []) :
    (getOrFetchData st sym per f now).fetchInvoked = true ∧
    (getOrFetchData st sym per f now).result = f := by
  apply getOrFetchData_invoked_of_miss
  unfold getCachedData
  rw [hrow]
  by_cases hex : row.expires_at < now
  · simp [hex]
  · simp [hex, hempty]

theorem getOrFetchData_emptyCached_refetches_witness :
    storeGet [(("A", TimePeriod.t1d), ⟨[], 10⟩)] ("A", TimePeriod.t1d) = some ⟨[], 10⟩ ∧
    (⟨[], 10⟩ : CacheRow).data = [] ∧
    ((getOrFetchData [(("A", TimePeriod.t1d), ⟨[], 10⟩)] "A" TimePeriod.t1d [⟨5, 6⟩] 3).fetchInvoked
        = true ∧
      (getOrFetchData [(("A", TimePeriod.t1d), ⟨[], 10⟩)] "A" TimePeriod.t1d [⟨5, 6⟩] 3).result
        = [⟨5, 6⟩]) :=
  ⟨by decide, rfl,
    getOrFetchData_emptyCached_refetches [(("A", TimePeriod.t1d), ⟨[], 10⟩)] "A"
      TimePeriod.t1d [⟨5, 6⟩] 3 ⟨[], 10⟩ (by decide) rfl⟩

/-- C4: contrary to the claim (and to the `Stock` type and the hook that
consume it), `fetchQuote` of `src/services/finnhub.ts` builds its result
record from only `c`, `d`, `dp` and `pc` of the payload — the day high `h`
and day low `l` it received are dropped, so the record has no
`dayHigh`/`dayLow` fields and the refresh writes `undefined` (here `none`)
into the quote's `dayHigh`/`dayLow` instead of 155/145. -/
theorem fetchQuote_missing_dayHighLow :
    fetchQuoteResult c4resp = Except.ok c4fields ∧
    jsGet c4fields "price" = some 150 ∧
    jsGet c4fields "change" = some 2 ∧
    jsGet c4fields "changePercent" = some 1 ∧
    jsGet c4fields "previousClose" = some 148 ∧
    c4resp.h = 155 ∧ c4resp.l = 145 ∧
    jsGet c4fields "dayHigh" = none ∧
    jsGet c4fields "dayLow" = none ∧
    (applyQuote c4stock ⟨150, 2, 1, jsGet c4fields "dayHigh", jsGet c4fields "dayLow"⟩ 0).dayHigh
      = none ∧
    (applyQuote c4stock ⟨150, 2, 1, jsGet c4fields "dayHigh", jsGet c4fields "dayLow"⟩ 0).dayLow
      = none :=
  ⟨rfl, by decide⟩

theorem rlStep_eq (max : Nat) (window : Int) (s : RLState) (now : Int) :
    rlStep max window s now =
      if now - s.lastRequestTime > window then
        (if max = 0 then (now + window, ⟨1, now + window⟩) else (now, ⟨1, now⟩))
      else if s.requestCount ≥ max then
        (s.lastRequestTime + window, ⟨1, s.lastRequestTime + window⟩)
      else
        (now, ⟨s.requestCount + 1, s.lastRequestTime⟩) := by
  unfold rlStep
  split_ifs with h1 h2 h3 <;>
    (simp_all [Prod.mk.injEq, RLState.mk.injEq]; try omega)

theorem rlRun_budget (window now : Int) (hw : 0 ≤ window) :
    ∀ (k c max : Nat), c + k ≤ max →
      rlCompletions max window ⟨c, now⟩ (List.replicate k now) = List.replicate k now := by
  intro k
  induction k with
  | zero =>
    intro c max _
    rfl
  | succ k ih =>
    intro c max h
    have hstep : rlStep max window ⟨c, now⟩ now = (now, ⟨c + 1, now⟩) := by
      rw [rlStep_eq]
      rw [if_neg (show ¬ now - now > window by omega)]
      rw [if_neg (show ¬ c ≥ max by omega)]
    rw [List.replicate_succ]
    unfold rlCompletions rlRun
    rw [hstep]
    simp only [List.map_cons]
    have := ih (c + 1) max (by omega)
    unfold rlCompletions at this
    rw [this]

/-- C9: `clearCache` empties the memo cache and also resets the shared
rate-limiter state — `requestCount := 0`, `lastRequestTime := now` — so
immediately afterwards a full budget of `max` `checkRateLimit` calls at the
current instant all complete without waiting. -/
theorem clearCache_resets_rateLimiter (st : FinnhubModuleState) (now : Int)
    (max k : Nat) (window : Int) (hw : 0 ≤ window) (hk : k ≤ max) :
    (clearCache st now).cache = [] ∧
    (clearCache st now).requestCount = 0 ∧
    (clearCache st now).lastRequestTime = now ∧
    rlCompletions max window (rlStateOf (clearCache st now)) (List.replicate k now)
      = List.replicate k now := by
  refine ⟨rfl, rfl, rfl, ?_⟩
  exact rlRun_budget window now hw k 0 max (by omega)

theorem clearCache_resets_rateLimiter_witness :
    (0 : Int) ≤ 60000 ∧ (55 : Nat) ≤ 55 ∧
    ((clearCache ⟨[("quote_AAPL", 5)], 54, 3⟩ 100).cache = [] ∧
     (clearCache ⟨[("quote_AAPL", 5)], 54, 3⟩ 100).requestCount = 0 ∧
     (clearCache ⟨[("quote_AAPL", 5)], 54, 3⟩ 100).lastRequestTime = 100 ∧
     rlCompletions 55 60000 (rlStateOf (clearCache ⟨[("quote_AAPL", 5)], 54, 3⟩ 100))
        (List.replicate 55 100) = List.replicate 55 100) :=
  ⟨by decide, by decide,
    clearCache_resets_rateLimiter ⟨[("quote_AAPL", 5)], 54, 3⟩ 100 55 55 60000
      (by decide) (by decide)⟩

theorem rlStep_tag_ge (max : Nat) (window : Int) (s : RLState) (now : Int) (hw : 0 ≤ window) :
    s.lastRequestTime ≤ (rlStep max window s now).2.lastRequestTime := by
  unfold rlStep
  by_cases h1 : now - s.lastRequestTime > window
  · by_cases h2 : (0 : Nat) ≥ max
    · simp only [h1, if_true, ge_iff_le, h2]
      simp [h2]
      omega
    · simp [h1, h2]
      omega
  · by_cases h2 : s.requestCount ≥ max
    · simp [h1, h2]
      omega
    · simp [h1, h2]

theorem rlWindowCount_zero_of_lt (max : Nat) (window : Int) (hw : 0 ≤ window) :
    ∀ (calls : List Int) (s : RLState) (w : Int), w < s.lastRequestTime →
      rlWindowCount max window s calls w = 0 := by
  intro calls
  induction calls with
  | nil =>
    intro s w _
    rfl
  | cons now rest ih =>
    intro s w h
    have htag := rlStep_tag_ge max window s now hw
    have hne : ¬ ((rlStep max window s now).2.lastRequestTime = w) := by omega
    unfold rlWindowCount rlRun
    simp only [List.filter_cons, decide_eq_true_eq, hne, if_false]
    exact ih (rlStep max window s now).2 w (by omega)

theorem rlRun_cons (max : Nat) (window : Int) (s : RLState) (now : Int) (rest : List Int) :
    rlRun max window s (now :: rest)
      = rlStep max window s now :: rlRun max window (rlStep max window s now).2 rest := rfl

theorem rlWindowCount_cons (max : Nat) (window : Int) (s : RLState) (now w : Int)
    (rest : List Int) :
    rlWindowCount max window s (now :: rest) w
      = (if (rlStep max window s now).2.lastRequestTime = w then 1 else 0)
        + rlWindowCount max window (rlStep max window s now).2 rest w := by
  unfold rlWindowCount
  rw [rlRun_cons]
  by_cases h : (rlStep max window s now).2.lastRequestTime = w
  · simp [List.filter_cons, h, Nat.add_comm]
  · simp [List.filter_cons, h]

theorem rlWindowCount_le (max : Nat) (window : Int) (hmax : 0 < max) (hw : 0 < window) :
    ∀ (calls : List Int) (s : RLState) (w : Int), s.requestCount ≤ max →
      rlWindowCount max window s calls w
        + (if s.lastRequestTime = w then s.requestCount else 0) ≤ max := by
  intro calls
  induction calls with
  | nil =>
    intro s w hc
    have h0 : rlWindowCount max window s [] w = 0 := rfl
    rw [h0]
    split_ifs <;> omega
  | cons now rest ih =>
    intro s w hc
    by_cases h1 : now - s.lastRequestTime > window
    · have hstep : rlStep max window s now = (now, ⟨1, now⟩) := by
        rw [rlStep_eq, if_pos h1, if_neg (by omega : ¬ max = 0)]
      rw [rlWindowCount_cons, hstep]
      dsimp only
      by_cases hnw : now = w
      · have hsw : ¬ s.lastRequestTime = w := by omega
        have hih := ih ⟨1, now⟩ w (show 1 ≤ max by omega)
        dsimp only at hih
        rw [if_pos hnw] at hih
        rw [if_pos hnw, if_neg hsw]
        omega
      · by_cases hsw : s.lastRequestTime = w
        · have hz := rlWindowCount_zero_of_lt max window (by omega) rest ⟨1, now⟩ w
            (by dsimp only; omega)
          rw [if_neg hnw, if_pos hsw]
          omega
        · have hih := ih ⟨1, now⟩ w (show 1 ≤ max by omega)
          dsimp only at hih
          rw [if_neg hnw] at hih
          rw [if_neg hnw, if_neg hsw]
          omega
    · by_cases h2 : s.requestCount ≥ max
      · have hstep : rlStep max window s now
            = (s.lastRequestTime + window, ⟨1, s.lastRequestTime + window⟩) := by
          rw [rlStep_eq, if_neg h1, if_pos h2]
        rw [rlWindowCount_cons, hstep]
        dsimp only
        by_cases hdw : s.lastRequestTime + window = w
        · have hsw : ¬ s.lastRequestTime = w := by omega
          have hih := ih ⟨1, s.lastRequestTime + window⟩ w (show 1 ≤ max by omega)
          dsimp only at hih
          rw [if_pos hdw] at hih
          rw [if_pos hdw, if_neg hsw]
          omega
        · by_cases hsw : s.lastRequestTime = w
          · have hz := rlWindowCount_zero_of_lt max window (by omega) rest
              ⟨1, s.lastRequestTime + window⟩ w (by dsimp only; omega)
            rw [if_neg hdw, if_pos hsw]
            omega
          · have hih := ih ⟨1, s.lastRequestTime + window⟩ w (show 1 ≤ max by omega)
            dsimp only at hih
            rw [if_neg hdw] at hih
            rw [if_neg hdw, if_neg hsw]
            omega
      · have hstep : rlStep max window s now
            = (now, ⟨s.requestCount + 1, s.lastRequestTime⟩) := by
          rw [rlStep_eq, if_neg h1, if_neg h2]
        rw [rlWindowCount_cons, hstep]
        dsimp only
        have hih := ih ⟨s.requestCount + 1, s.lastRequestTime⟩ w (show s.requestCount + 1 ≤ max by omega)
        dsimp only at hih
        by_cases hsw : s.lastRequestTime = w
        · rw [if_pos hsw] at hih
          rw [if_pos hsw, if_pos hsw]
          omega
        · rw [if_neg hsw] at hih
          rw [if_neg hsw, if_neg hsw]
          omega

/-- C1 counterexample: the limiter resets its fixed window on elapse, so a
burst at the end of one fixed window followed by a burst at the start of the
next exceeds the limit inside one rolling window.  With `max = 2`,
`window = 10` and a realizable sequential trace of five calls at instants
`9, 9, 9, 10, 10` from the initial state, completions land at
`9, 9, 10, 10, 20`, and the rolling window `[9, 19)` contains 4 > 2 of
them. -/
theorem rateLimiter_rollingWindow_counterexample :
    rlSequential 2 10 ⟨0, 0⟩ [9, 9, 9, 10, 10] = true ∧
    rlCompletions 2 10 ⟨0, 0⟩ [9, 9, 9, 10, 10] = [9, 9, 10, 10, 20] ∧
    rlCompletionsWithin 2 10 ⟨0, 0⟩ [9, 9, 9, 10, 10] 9 10 = 4 ∧
    2 < 4 := by
  decide

/-- C1 (amended): the limiter bounds each of its own fixed windows, not
every rolling window — among the acquisitions that complete within one
limiter window (those completing while `lastRequestTime` holds a given
value `w`), at most `maxRequestsPerWindow` occur, for every run from the
initial module state; a rolling window straddling two fixed windows can see
up to twice the limit. -/
theorem rateLimiter_fixedWindow_bound (max : Nat) (window t0 w : Int)
    (calls : List Int) (hmax : 0 < max) (hw : 0 < window) :
    rlWindowCount max window ⟨0, t0⟩ calls w ≤ max := by
  have h := rlWindowCount_le max window hmax hw calls ⟨0, t0⟩ w (Nat.zero_le max)
  simpa using h

theorem rateLimiter_fixedWindow_bound_witness :
    (0 : Nat) < 2 ∧ (0 : Int) < 10 ∧
    rlWindowCount 2 10 ⟨0, 0⟩ [9, 9, 9, 10, 10] 10 ≤ 2 :=
  ⟨by decide, by decide,
    rateLimiter_fixedWindow_bound 2 10 0 10 [9, 9, 9, 10, 10] (by decide) (by decide)⟩

theorem getLast?_or_cons {α : Type} (a : α) (l : List α) :
    (a :: l).getLast? = (l.getLast?).or (some a) := by
  induction l generalizing a with
  | nil => rfl
  | cons b l ih =>
    rw [List.getLast?_cons_cons, ih b]
    cases l.getLast? <;> rfl

theorem foldl_lastwins (q : PricePoint → Prop) [DecidablePred q] (l : List PricePoint) :
    ∀ acc : Option PricePoint,
      l.foldl (fun acc x => if q x then some x else acc) acc
        = ((l.filter fun x => decide (q x)).getLast?).or acc := by
  induction l with
  | nil =>
    intro acc
    simp
  | cons x l ih =>
    intro acc
    by_cases hx : q x
    · rw [List.foldl_cons, if_pos hx, ih (some x), List.filter_cons, if_pos (by simpa using hx),
        getLast?_or_cons]
      cases (l.filter fun x => decide (q x)).getLast? <;> rfl
    · rw [List.foldl_cons, if_neg hx, ih acc, List.filter_cons, if_neg (by simpa using hx)]

/-- C6: `downsampleData` partitions `[now - maxPoints*bucketWidth, now)` into
`maxPoints` fixed-width buckets and outputs, per bucket, exactly the last raw
tick falling in it, omitting empty buckets: it agrees with the last-value-
wins scan modelled from the spec's wording, yields `[]` on an empty raw
buffer, and every output point lies in the partitioned window. -/
theorem downsample_lastTick_per_bucket (realtimeData : List PricePoint) (intervalMs : Int)
    (maxPoints : Nat) (now : Int) (hpos : 0 < intervalMs) :
    downsampleData realtimeData intervalMs maxPoints now
      = downsampleSpec realtimeData intervalMs maxPoints now ∧
    downsampleData [] intervalMs maxPoints now = [] ∧
    ((downsampleData realtimeData intervalMs maxPoints now).all fun p =>
        decide (now - (maxPoints : Int) * intervalMs ≤ p.timestamp)
          && decide (p.timestamp < now)) = true := by
  have hspec : ∀ data : List PricePoint, data.length ≠ 0 →
      downsampleData data intervalMs maxPoints now
        = downsampleSpec data intervalMs maxPoints now := by
    intro data hd
    unfold downsampleData downsampleSpec
    rw [if_neg hd]
    refine List.filterMap_congr ?_
    intro i _
    show (data.filter fun x =>
        decide (now - (maxPoints : Int) * intervalMs + (i : Int) * intervalMs ≤ x.timestamp)
          && decide (x.timestamp < now - (maxPoints : Int) * intervalMs
            + (i : Int) * intervalMs + intervalMs)).getLast?
      = data.foldl (fun acc x =>
          if now - (maxPoints : Int) * intervalMs + (i : Int) * intervalMs ≤ x.timestamp
              ∧ x.timestamp < now - (maxPoints : Int) * intervalMs + (i : Int) * intervalMs
                + intervalMs then some x else acc) none
    rw [foldl_lastwins (fun x : PricePoint =>
        now - (maxPoints : Int) * intervalMs + (i : Int) * intervalMs ≤ x.timestamp
          ∧ x.timestamp < now - (maxPoints : Int) * intervalMs + (i : Int) * intervalMs
            + intervalMs) data none, Option.or_none]
    have hfil : (data.filter fun x =>
        decide (now - (maxPoints : Int) * intervalMs + (i : Int) * intervalMs ≤ x.timestamp)
          && decide (x.timestamp < now - (maxPoints : Int) * intervalMs
            + (i : Int) * intervalMs + intervalMs))
        = data.filter fun x =>
            decide (now - (maxPoints : Int) * intervalMs + (i : Int) * intervalMs ≤ x.timestamp
              ∧ x.timestamp < now - (maxPoints : Int) * intervalMs + (i : Int) * intervalMs
                + intervalMs) := by
      refine List.filter_congr ?_
      intro x _
      simp only [Bool.decide_and]
    rw [hfil]
  refine ⟨?_, rfl, ?_⟩
  · by_cases hd : realtimeData.length = 0
    · have hdata : realtimeData = [] := List.length_eq_zero.mp hd
      subst hdata
      have : downsampleSpec [] intervalMs maxPoints now = [] := by
        unfold downsampleSpec
        simp
      rw [this]
      rfl
    · exact hspec realtimeData hd
  · rw [List.all_eq_true]
    intro p hp
    by_cases hd : realtimeData.length = 0
    · have hdata : realtimeData = [] := List.length_eq_zero.mp hd
      subst hdata
      simp [downsampleData] at hp
    · unfold downsampleData at hp
      rw [if_neg hd] at hp
      simp only [List.mem_filterMap, List.mem_range] at hp
      obtain ⟨i, hi, hlast⟩ := hp
      have hpmem : p ∈ realtimeData.filter fun x =>
          decide (now - (maxPoints : Int) * intervalMs + (i : Int) * intervalMs ≤ x.timestamp)
            && decide (x.timestamp < now - (maxPoints : Int) * intervalMs
              + (i : Int) * intervalMs + intervalMs) :=
        List.mem_of_mem_getLast? (by simp [hlast])
      have hcond := List.of_mem_filter hpmem
      simp only [Bool.and_eq_true, decide_eq_true_eq] at hcond
      have h1 : (0 : Int) ≤ (i : Int) * intervalMs :=
        mul_nonneg (Int.natCast_nonneg i) (le_of_lt hpos)
      have h2 : ((i : Int) + 1) * intervalMs ≤ (maxPoints : Int) * intervalMs := by
        apply mul_le_mul_of_nonneg_right _ (le_of_lt hpos)
        exact_mod_cast Nat.succ_le_of_lt hi
      have h3 : ((i : Int) + 1) * intervalMs = (i : Int) * intervalMs + intervalMs := by
        ring
      simp only [Bool.and_eq_true, decide_eq_true_eq]
      omega

theorem downsample_lastTick_per_bucket_witness :
    (0 : Int) < 1000 ∧
    (downsampleData [⟨1500, 7⟩, ⟨2500, 8⟩, ⟨2700, 9⟩] 1000 3 3000
        = downsampleSpec [⟨1500, 7⟩, ⟨2500, 8⟩, ⟨2700, 9⟩] 1000 3 3000 ∧
      downsampleData [] 1000 3 3000 = [] ∧
      ((downsampleData [⟨1500, 7⟩, ⟨2500, 8⟩, ⟨2700, 9⟩] 1000 3 3000).all fun p =>
          decide ((3000 : Int) - (3 : Nat) * 1000 ≤ p.timestamp)
            && decide (p.timestamp < 3000)) = true) :=
  ⟨by decide,
    downsample_lastTick_per_bucket [⟨1500, 7⟩, ⟨2500, 8⟩, ⟨2700, 9⟩] 1000 3 3000 (by decide)⟩

theorem applyQuote_symbol (s : StockState) (q : QuoteData) (dv : Int) :
    (applyQuote s q dv).symbol = s.symbol := rfl

theorem getStock_cons (x : StockState) (l : List StockState) (sym : String) :
    getStock (x :: l) sym = if x.symbol = sym then some x else getStock l sym := by
  unfold getStock
  by_cases hx : x.symbol = sym
  · rw [List.find?_cons_of_pos _ (by simpa using hx), if_pos hx]
  · rw [List.find?_cons_of_neg _ (by simpa using hx), if_neg hx]

theorem getStock_map_other (stocks : List StockState) (sym sym' : String) (q : QuoteData)
    (dv' : Int) (h : sym ≠ sym') :
    getStock (stocks.map fun s => if s.symbol = sym' then applyQuote s q dv' else s) sym
      = getStock stocks sym := by
  induction stocks with
  | nil => rfl
  | cons a stocks ih =>
    rw [List.map_cons, getStock_cons, getStock_cons]
    by_cases ha : a.symbol = sym'
    · have hno' : ¬ a.symbol = sym := by
        rw [ha]
        exact fun he => h he.symm
      simp only [if_pos ha, applyQuote_symbol]
      rw [if_neg hno', if_neg hno']
      exact ih
    · simp only [if_neg ha]
      by_cases hs : a.symbol = sym
      · rw [if_pos hs, if_pos hs]
      · rw [if_neg hs, if_neg hs]
        exact ih

theorem getStock_map_self (stocks : List StockState) (sym : String) (q : QuoteData)
    (dv' : Int) :
    getStock (stocks.map fun s => if s.symbol = sym then applyQuote s q dv' else s) sym
      = (getStock stocks sym).map fun s => applyQuote s q dv' := by
  induction stocks with
  | nil => rfl
  | cons a stocks ih =>
    rw [List.map_cons, getStock_cons, getStock_cons]
    by_cases ha : a.symbol = sym
    · simp only [if_pos ha, applyQuote_symbol]
      rfl
    · simp only [if_neg ha]
      exact ih

theorem updateQuotesStep_skip (avail : String → Bool) (fetch : String → Option QuoteData)
    (dv : String → Int) (stocks : List StockState) (sym : String)
    (h : avail sym = false ∨ fetch sym = none) :
    updateQuotesStep avail fetch dv stocks sym = stocks := by
  unfold updateQuotesStep
  rcases h with h | h
  · rw [h]
    rfl
  · rw [h]
    by_cases ha : avail sym <;> simp [ha]

theorem getStock_step_other (avail : String → Bool) (fetch : String → Option QuoteData)
    (dv : String → Int) (stocks : List StockState) (sym sym' : String) (h : sym ≠ sym') :
    getStock (updateQuotesStep avail fetch dv stocks sym') sym = getStock stocks sym := by
  unfold updateQuotesStep
  by_cases ha : avail sym'
  · rw [if_pos ha]
    cases fetch sym' with
    | none => rfl
    | some q => exact getStock_map_other stocks sym sym' q (dv sym') h
  · rw [if_neg ha]

theorem getStock_fold_not_mem (avail : String → Bool) (fetch : String → Option QuoteData)
    (dv : String → Int) :
    ∀ (syms : List String) (stocks : List StockState) (sym : String), sym ∉ syms →
      getStock (syms.foldl (updateQuotesStep avail fetch dv) stocks) sym
        = getStock stocks sym := by
  intro syms
  induction syms with
  | nil =>
    intro stocks sym _
    rfl
  | cons a syms ih =>
    intro stocks sym h
    have h1 : sym ≠ a := fun he => h (he ▸ List.mem_cons_self a syms)
    rw [List.foldl_cons, ih _ sym (fun hm => h (List.mem_cons_of_mem a hm))]
    exact getStock_step_other avail fetch dv stocks sym a h1

theorem getStock_of_mem_nodup (stocks : List StockState) (s : StockState)
    (hmem : s ∈ stocks) (hnd : (stocks.map (·.symbol)).Nodup) :
    getStock stocks s.symbol = some s := by
  induction stocks with
  | nil => cases hmem
  | cons a stocks ih =>
    rcases List.mem_cons.mp hmem with he | hmem'
    · subst he
      rw [getStock_cons, if_pos rfl]
    · have hnd' := List.nodup_cons.mp hnd
      have hns : ¬ a.symbol = s.symbol := by
        intro he
        apply hnd'.1
        show a.symbol ∈ List.map (fun x => x.symbol) stocks
        rw [he]
        exact List.mem_map_of_mem (·.symbol) hmem'
      rw [getStock_cons, if_neg hns]
      exact ih hmem' hnd'.2

/-- C7: within one refresh tick, a symbol whose quote fetch fails (modelled
by `fetch` returning `none`, which is what the catch in `fetchStockQuote`
produces) keeps its last known quote, while every symbol whose fetch
succeeds is updated from its quote — one symbol's failure never prevents the
others in the same tick from updating. -/
theorem updateQuotes_failure_isolation (avail : String → Bool)
    (fetch : String → Option QuoteData) (dv : String → Int)
    (stocks : List StockState) (s : StockState) (q : QuoteData)
    (hnd : (stocks.map (·.symbol)).Nodup) (hmem : s ∈ stocks) :
    (avail s.symbol = false ∨ fetch s.symbol = none →
      getStock (updateQuotes avail fetch dv stocks) s.symbol = some s) ∧
    (avail s.symbol = true → fetch s.symbol = some q →
      getStock (updateQuotes avail fetch dv stocks) s.symbol
        = some (applyQuote s q (dv s.symbol))) := by
  obtain ⟨pre, post, hsplit⟩ := List.append_of_mem (List.mem_map_of_mem (·.symbol) hmem)
  have hnd2 : (pre ++ s.symbol :: post).Nodup := hsplit ▸ hnd
  have hpost : s.symbol ∉ post := by
    have h1 := hnd2.of_append_right
    exact (List.nodup_cons.mp h1).1
  have hpre : s.symbol ∉ pre := by
    intro hm
    exact (List.disjoint_of_nodup_append hnd2) hm (List.mem_cons_self _ _)
  have hbase : getStock (pre.foldl (updateQuotesStep avail fetch dv) stocks) s.symbol
      = some s := by
    rw [getStock_fold_not_mem avail fetch dv pre stocks s.symbol hpre]
    exact getStock_of_mem_nodup stocks s hmem hnd
  have hun : updateQuotes avail fetch dv stocks
      = post.foldl (updateQuotesStep avail fetch dv)
          (updateQuotesStep avail fetch dv
            (pre.foldl (updateQuotesStep avail fetch dv) stocks) s.symbol) := by
    unfold updateQuotes
    rw [hsplit, List.foldl_append, List.foldl_cons]
  constructor
  · intro hfail
    rw [hun, getStock_fold_not_mem avail fetch dv post _ s.symbol hpost,
      updateQuotesStep_skip avail fetch dv _ s.symbol hfail]
    exact hbase
  · intro hav hf
    rw [hun, getStock_fold_not_mem avail fetch dv post _ s.symbol hpost]
    have hstep : getStock (updateQuotesStep avail fetch dv
        (pre.foldl (updateQuotesStep avail fetch dv) stocks) s.symbol) s.symbol
        = (getStock (pre.foldl (updateQuotesStep avail fetch dv) stocks) s.symbol).map
            fun t => applyQuote t q (dv s.symbol) := by
      unfold updateQuotesStep
      simp only [hav, hf, if_true]
      exact getStock_map_self _ s.symbol q (dv s.symbol)
    rw [hstep, hbase]
    rfl

theorem updateQuotes_failure_isolation_witness :
    (([⟨"A", 100, none, 1, 1, none, none, 10, .neutral⟩,
       ⟨"B", 200, none, 2, 2, none, none, 20, .neutral⟩] : List StockState).map
        (·.symbol)).Nodup ∧
    getStock (updateQuotes (fun _ => true)
        (fun sym => if sym = "A" then some ⟨110, 10, 10, none, none⟩ else none)
        (fun _ => 5)
        [⟨"A", 100, none, 1, 1, none, none, 10, .neutral⟩,
         ⟨"B", 200, none, 2, 2, none, none, 20, .neutral⟩]) "B"
      = some ⟨"B", 200, none, 2, 2, none, none, 20, .neutral⟩ ∧
    getStock (updateQuotes (fun _ => true)
        (fun sym => if sym = "A" then some ⟨110, 10, 10, none, none⟩ else none)
        (fun _ => 5)
        [⟨"A", 100, none, 1, 1, none, none, 10, .neutral⟩,
         ⟨"B", 200, none, 2, 2, none, none, 20, .neutral⟩]) "A"
      = some (applyQuote ⟨"A", 100, none, 1, 1, none, none, 10, .neutral⟩
          ⟨110, 10, 10, none, none⟩ 5) :=
  ⟨by decide,
    (updateQuotes_failure_isolation (fun _ => true)
      (fun sym => if sym = "A" then some ⟨110, 10, 10, none, none⟩ else none)
      (fun _ => 5)
      [⟨"A", 100, none, 1, 1, none, none, 10, .neutral⟩,
       ⟨"B", 200, none, 2, 2, none, none, 20, .neutral⟩]
      ⟨"B", 200, none, 2, 2, none, none, 20, .neutral⟩
      ⟨110, 10, 10, none, none⟩ (by decide) (by decide)).1 (Or.inr (by decide)),
    (updateQuotes_failure_isolation (fun _ => true)
      (fun sym => if sym = "A" then some ⟨110, 10, 10, none, none⟩ else none)
      (fun _ => 5)
      [⟨"A", 100, none, 1, 1, none, none, 10, .neutral⟩,
       ⟨"B", 200, none, 2, 2, none, none, 20, .neutral⟩]
      ⟨"A", 100, none, 1, 1, none, none, 10, .neutral⟩
      ⟨110, 10, 10, none, none⟩ (by decide) (by decide)).2 rfl (by decide)⟩

theorem lookupK_map_set_eq (m : List (Int × Int)) (k v : Int)
    (hmem : m.any (fun e => decide (e.1 = k)) = true) :
    lookupK (m.map fun e => if e.1 = k then (k, v) else e) k = some v := by
  induction m with
  | nil => simp at hmem
  | cons e m ih =>
    rw [List.map_cons]
    by_cases he : e.1 = k
    · rw [if_pos he]
      unfold lookupK
      rw [List.find?_cons_of_pos _ (by simp)]
      rfl
    · rw [if_neg he]
      unfold lookupK at ih ⊢
      rw [List.find?_cons_of_neg _ (by simpa using he)]
      exact ih (by simpa [List.any_cons, he] using hmem)

theorem lookupK_map_set_ne (m : List (Int × Int)) (k v t : Int) (ht : ¬ t = k) :
    lookupK (m.map fun e => if e.1 = k then (k, v) else e) t = lookupK m t := by
  induction m with
  | nil => rfl
  | cons e m ih =>
    rw [List.map_cons]
    by_cases he : e.1 = k
    · have hkt : ¬ ((k, v).1 = t) := fun h => ht h.symm
      have het : ¬ e.1 = t := by
        rw [he]
        exact fun h => ht h.symm
      rw [if_pos he]
      unfold lookupK at ih ⊢
      rw [List.find?_cons_of_neg _ (by simpa using hkt),
        List.find?_cons_of_neg _ (by simpa using het)]
      exact ih
    · rw [if_neg he]
      by_cases het : e.1 = t
      · unfold lookupK
        rw [List.find?_cons_of_pos _ (by simpa using het),
          List.find?_cons_of_pos _ (by simpa using het)]
      · unfold lookupK at ih ⊢
        rw [List.find?_cons_of_neg _ (by simpa using het),
          List.find?_cons_of_neg _ (by simpa using het)]
        exact ih

theorem lookupK_jsMapSet (m : List (Int × Int)) (k v t : Int) :
    lookupK (jsMapSet m k v) t = if t = k then some v else lookupK m t := by
  unfold jsMapSet
  by_cases hmem : m.any fun e => decide (e.1 = k)
  · rw [if_pos hmem]
    by_cases ht : t = k
    · subst ht
      rw [if_pos rfl]
      exact lookupK_map_set_eq m t v hmem
    · rw [if_neg ht]
      exact lookupK_map_set_ne m k v t ht
  · rw [if_neg hmem]
    have hnone : m.find? (fun e => decide (e.1 = k)) = none := by
      rw [List.find?_eq_none]
      intro x hx hpx
      exact hmem (List.any_eq_true.mpr ⟨x, hx, hpx⟩)
    by_cases ht : t = k
    · subst ht
      rw [if_pos rfl]
      unfold lookupK
      rw [List.find?_append, hnone, List.find?_cons_of_pos _ (by simp)]
      rfl
    · rw [if_neg ht]
      unfold lookupK
      rw [List.find?_append, List.find?_cons_of_neg _ (by simpa using fun h => ht h.symm),
        show ([] : List (Int × Int)).find? (fun e => decide (e.1 = t)) = none from rfl,
        Option.or_none]

theorem lastVal_cons (p : PricePoint) (pts : List PricePoint) (t : Int) :
    lastVal (p :: pts) t
      = (lastVal pts t).or (if p.timestamp = t then some p.price else none) := by
  unfold lastVal
  by_cases hp : p.timestamp = t
  · rw [List.filter_cons, if_pos (by simpa using hp), getLast?_or_cons, if_pos hp]
    cases (pts.filter fun x => decide (x.timestamp = t)).getLast? <;> rfl
  · rw [List.filter_cons, if_neg (by simpa using hp), if_neg hp, Option.or_none]

theorem lookupK_fromPoints (pts : List PricePoint) :
    ∀ (m : List (Int × Int)) (t : Int),
      lookupK (pts.foldl (fun m p => jsMapSet m p.timestamp p.price) m) t
        = (lastVal pts t).or (lookupK m t) := by
  induction pts with
  | nil =>
    intro m t
    rfl
  | cons p pts ih =>
    intro m t
    rw [List.foldl_cons, ih, lastVal_cons, lookupK_jsMapSet]
    by_cases hp : p.timestamp = t
    · rw [if_pos hp, if_pos hp.symm]
      cases lastVal pts t <;> rfl
    · rw [if_neg hp, if_neg (fun h => hp h.symm), Option.or_none]

theorem jsMapSet_keys (m : List (Int × Int)) (k v : Int) :
    (jsMapSet m k v).map Prod.fst
      = if m.any (fun e => decide (e.1 = k)) then m.map Prod.fst
        else m.map Prod.fst ++ [k] := by
  unfold jsMapSet
  by_cases h : m.any fun e => decide (e.1 = k)
  · rw [if_pos h, if_pos h, List.map_map]
    apply List.map_congr_left
    intro e _
    by_cases he : e.1 = k
    · simp [he]
    · simp [he]
  · rw [if_neg h, if_neg h, List.map_append]
    rfl

theorem jsMapSet_keys_nodup (m : List (Int × Int)) (k v : Int)
    (h : (m.map Prod.fst).Nodup) : ((jsMapSet m k v).map Prod.fst).Nodup := by
  rw [jsMapSet_keys]
  by_cases hmem : m.any fun e => decide (e.1 = k)
  · rw [if_pos hmem]
    exact h
  · rw [if_neg hmem]
    have hk : k ∉ m.map Prod.fst := by
      intro hkm
      obtain ⟨e, hem, hek⟩ := List.mem_map.mp hkm
      exact hmem (List.any_eq_true.mpr ⟨e, hem, by simpa using hek⟩)
    refine List.Nodup.append h (List.nodup_singleton k) ?_
    intro a ha hb
    rw [List.mem_singleton.mp hb] at ha
    exact hk ha

theorem jsMapFromPoints_keys_nodup (pts : List PricePoint) :
    ((jsMapFromPoints pts).map Prod.fst).Nodup := by
  unfold jsMapFromPoints
  have hgen : ∀ (m : List (Int × Int)), (m.map Prod.fst).Nodup →
      ((pts.foldl (fun m p => jsMapSet m p.timestamp p.price) m).map Prod.fst).Nodup := by
    induction pts with
    | nil =>
      intro m hm
      exact hm
    | cons p pts ih =>
      intro m hm
      rw [List.foldl_cons]
      exact ih _ (jsMapSet_keys_nodup m p.timestamp p.price hm)
  exact hgen [] (by simp)

theorem sortInsertTs_perm (p : PricePoint) (l : List PricePoint) :
    (sortInsertTs p l).Perm (p :: l) := by
  induction l with
  | nil => exact List.Perm.refl _
  | cons q l ih =>
    unfold sortInsertTs
    by_cases h : p.timestamp ≤ q.timestamp
    · rw [if_pos h]
    · rw [if_neg h]
      exact List.Perm.trans (List.Perm.cons q ih) (List.Perm.swap p q l)

theorem sortByTs_perm (l : List PricePoint) : (sortByTs l).Perm l := by
  induction l with
  | nil => exact List.Perm.refl _
  | cons p l ih =>
    have hstep : sortByTs (p :: l) = sortInsertTs p (sortByTs l) := rfl
    rw [hstep]
    exact List.Perm.trans (sortInsertTs_perm p (sortByTs l)) (List.Perm.cons p ih)

theorem sortInsertTs_sorted (p : PricePoint) (l : List PricePoint)
    (h : l.Pairwise fun a b => a.timestamp ≤ b.timestamp) :
    (sortInsertTs p l).Pairwise fun a b => a.timestamp ≤ b.timestamp := by
  induction l with
  | nil => simp [sortInsertTs]
  | cons q l ih =>
    rcases List.pairwise_cons.mp h with ⟨hql, hl⟩
    unfold sortInsertTs
    by_cases hpq : p.timestamp ≤ q.timestamp
    · rw [if_pos hpq]
      apply List.pairwise_cons.mpr
      refine ⟨?_, h⟩
      intro x hx
      rcases List.mem_cons.mp hx with he | hm
      · rw [he]
        exact hpq
      · exact le_trans hpq (hql x hm)
    · rw [if_neg hpq]
      apply List.pairwise_cons.mpr
      constructor
      · intro x hx
        rcases List.mem_cons.mp ((sortInsertTs_perm p l).mem_iff.mp hx) with he | hm
        · rw [he]
          omega
        · exact hql x hm
      · exact ih hl

theorem sortByTs_sorted (l : List PricePoint) :
    (sortByTs l).Pairwise fun a b => a.timestamp ≤ b.timestamp := by
  induction l with
  | nil => simp [sortByTs]
  | cons p l ih => exact sortInsertTs_sorted p (sortByTs l) ih

theorem merge_lookup (existing newPts : List PricePoint) (t : Int)
    (ht : t ∈ newPts.map (·.timestamp)) :
    lookupK (jsMapFromPoints (existing ++ newPts)) t = lastVal newPts t := by
  obtain ⟨p, hpm, hts⟩ := List.mem_map.mp ht
  have hne : (newPts.filter fun x => decide (x.timestamp = t)) ≠ [] := by
    intro h0
    have hmemf : p ∈ newPts.filter fun x => decide (x.timestamp = t) :=
      List.mem_filter.mpr ⟨hpm, by simpa using hts⟩
    rw [h0] at hmemf
    cases hmemf
  obtain ⟨v, hv⟩ : ∃ v, lastVal newPts t = some v := by
    unfold lastVal
    cases hgl : (newPts.filter fun x => decide (x.timestamp = t)).getLast? with
    | none => exact absurd (List.getLast?_eq_none_iff.mp hgl) hne
    | some x => exact ⟨x.price, rfl⟩
  unfold jsMapFromPoints
  rw [List.foldl_append, lookupK_fromPoints, hv]
  rfl

theorem sortByTs_strict (u : List PricePoint)
    (h : (u.map fun p => p.timestamp).Nodup) :
    (sortByTs u).Pairwise fun a b => a.timestamp < b.timestamp := by
  have hperm := sortByTs_perm u
  have hnodup : ((sortByTs u).map fun p => p.timestamp).Nodup :=
    ((hperm.map fun p => p.timestamp).nodup_iff).mpr h
  have hne : (sortByTs u).Pairwise fun a b => ¬ a.timestamp = b.timestamp :=
    List.pairwise_map.mp hnodup
  exact ((sortByTs_sorted u).and hne).imp fun hab => lt_of_le_of_ne hab.1 hab.2

/-- C5: after any merge step, the stored downsampled series is strictly
ascending by timestamp (hence duplicate-free), holds at most `maxPoints`
entries after trimming to the most recent ones, and the dedup step keeps the
latest value per timestamp — in particular, for a timestamp carried by the
newly computed bucket points, the deduped value is the last value among the
new points, overriding any earlier stored point at that timestamp. -/
theorem mergeSeries_invariants (existing newPts : List PricePoint) (maxPoints : Nat)
    (t : Int) (ht : t ∈ newPts.map (·.timestamp)) :
    (mergeSeries existing newPts maxPoints).Pairwise
      (fun a b => a.timestamp < b.timestamp) ∧
    (mergeSeries existing newPts maxPoints).length ≤ maxPoints ∧
    lookupK (jsMapFromPoints (existing ++ newPts)) t = lastVal newPts t := by
  have hkeys := jsMapFromPoints_keys_nodup (existing ++ newPts)
  have hu : (((jsMapFromPoints (existing ++ newPts)).map fun e => PricePoint.mk e.1 e.2).map
      fun p => p.timestamp).Nodup := by
    rw [List.map_map]
    exact hkeys
  refine ⟨?_, ?_, merge_lookup existing newPts t ht⟩
  · exact List.Pairwise.sublist (List.drop_sublist _ _) (sortByTs_strict _ hu)
  · show ((sortByTs ((jsMapFromPoints (existing ++ newPts)).map
        fun e => PricePoint.mk e.1 e.2)).drop
          ((sortByTs ((jsMapFromPoints (existing ++ newPts)).map
            fun e => PricePoint.mk e.1 e.2)).length - maxPoints)).length ≤ maxPoints
    rw [List.length_drop]
    omega

theorem mergeSeries_invariants_witness :
    (5 : Int) ∈ ([⟨5, 99⟩, ⟨7, 12⟩] : List PricePoint).map (·.timestamp) ∧
    ((mergeSeries [⟨1, 10⟩, ⟨5, 11⟩] [⟨5, 99⟩, ⟨7, 12⟩] 3).Pairwise
        (fun a b => a.timestamp < b.timestamp) ∧
      (mergeSeries [⟨1, 10⟩, ⟨5, 11⟩] [⟨5, 99⟩, ⟨7, 12⟩] 3).length ≤ 3 ∧
      lookupK (jsMapFromPoints ([⟨1, 10⟩, ⟨5, 11⟩] ++ [⟨5, 99⟩, ⟨7, 12⟩])) 5
        = lastVal [⟨5, 99⟩, ⟨7, 12⟩] 5) :=
  ⟨by decide,
    mergeSeries_invariants [⟨1, 10⟩, ⟨5, 11⟩] [⟨5, 99⟩, ⟨7, 12⟩] 3 5 (by decide)⟩
